import Mathlib

/-!
Verification of the skew-heap priority queue in src/src/priority_queue.hpp.

Two levels of embedding are used.

The tree level (namespace Heap) is the functional view of the node graph:
a value of Tree mirrors the subtree hanging off a Node pointer, and each
public operation of the class is translated into a function on trees.  The
caller-supplied comparison is a Bool-valued relation together with a failure
schedule: failAt k tells whether the k-th comparison invocation raises, and
the invocation counter is threaded through every operation, mirroring a
comparison object instrumented to fail on the Nth call.

The store level (namespace PtrModel) models the pointer structure itself:
a store is an association list from node addresses to records holding the
value and the left and right child pointers, and merge_nodes is translated
statement by statement, including the MergeGuard that snapshots a node's
children and restores them when a failure unwinds through the frame.  The
strong exception-safety claim is settled at this level.
-/

namespace SkewPQ

/-- Functional view of the node graph of priority_queue: a node holds a
value and owns a left and a right subtree; nil is the null pointer. -/
inductive Tree (α : Type) where
  | nil : Tree α
  | node (value : α) (left right : Tree α) : Tree α
deriving DecidableEq, Repr

/-- Number of nodes reachable from the root of a tree. -/
def Tree.size : Tree α → Nat
  | .nil => 0
  | .node _ l r => l.size + r.size + 1

/-- Multiset of the values stored in a tree. -/
def Tree.elems : Tree α → Multiset α
  | .nil => 0
  | .node v l r => {v} + l.elems + r.elems

/-- The value at the root of a nonempty tree is not ordered strictly below
x; vacuously true for the empty tree.  This is the per-child condition of
the heap-order invariant. -/
def Tree.rootNotAbove (lt : α → α → Bool) (x : α) : Tree α → Bool
  | .nil => true
  | .node v _ _ => !(lt x v)

/-- Heap-order invariant of the spec: for every node n with a present child
c, the comparison reporting n's value strictly below c's value returns
false. -/
def Tree.heapOrd (lt : α → α → Bool) : Tree α → Bool
  | .nil => true
  | .node v l r =>
      l.rootNotAbove lt v && r.rootNotAbove lt v && l.heapOrd lt && r.heapOrd lt

/-- Errors signalled by the queue operations: container_is_empty from top
and pop, a comparison failure wrapped as the library's runtime error, an
allocation or element-copy failure, and a marker for dereferencing an
absent root (which cannot happen on any state the class can reach). -/
inductive Err where
  | empty : Err
  | cmpFail : Err
  | alloc : Err
  | invalid : Err
deriving DecidableEq, Repr

namespace Heap

/-- Skew heap merge, translated from merge_nodes in priority_queue.hpp.  If
either input is absent the other is returned with no comparison.  Otherwise
one comparison is made (invocation number k; if failAt k the comparison
raises and the error carries the advanced counter): when comp(a.value,
b.value) the two roots are swapped so the surviving top node is the one not
ordered below the other, ties keeping the first argument.  The survivor's
right child is merged recursively with the other tree, installed as the new
right child, and then the survivor's children are swapped, so the final
children are (merged, original left). -/
def merge_nodes (lt : α → α → Bool) (failAt : Nat → Bool) :
    Tree α → Tree α → Nat → Except Nat (Tree α × Nat)
  | .nil, b, k => .ok (b, k)
  | a, .nil, k => .ok (a, k)
  | .node va la ra, .node vb lb rb, k =>
    if failAt k then .error (k + 1)
    else if lt va vb then
      match merge_nodes lt failAt rb (.node va la ra) (k + 1) with
      | .error k2 => .error k2
      | .ok (m, k2) => .ok (.node vb m lb, k2)
    else
      match merge_nodes lt failAt ra (.node vb lb rb) (k + 1) with
      | .error k2 => .error k2
      | .ok (m, k2) => .ok (.node va m la, k2)
termination_by a b _ => a.size + b.size
decreasing_by
  all_goals simp [Tree.size]
  all_goals omega

/-- State of one priority_queue object: the tree hanging off the root
pointer, the elementCount field, and the comparison object comp. -/
structure PQ (α : Type) where
  root : Tree α
  elementCount : Nat
  comp : α → α → Bool

/-- Translation of push: build a one-node tree for the new element, merge
it into the root (the new node is the second merge argument), and on
success replace the root and increment elementCount.  On a comparison
failure the new node is discarded and the queue is returned unchanged, the
failure surfacing as the wrapped runtime error. -/
def push (failAt : Nat → Bool) (q : PQ α) (e : α) (k : Nat) :
    Except Err Unit × PQ α × Nat :=
  match merge_nodes q.comp failAt q.root (.node e .nil .nil) k with
  | .ok (t, k2) => (.ok (), ⟨t, q.elementCount + 1, q.comp⟩, k2)
  | .error k2 => (.error .cmpFail, q, k2)

/-- Translation of pop: empty queues signal container_is_empty; otherwise
the root's two children are merged into the replacement root, the old root
node is freed, and elementCount is decremented.  On a comparison failure
the queue is returned unchanged.  The invalid arm marks dereferencing an
absent root with a nonzero count, which no reachable state exhibits. -/
def pop (failAt : Nat → Bool) (q : PQ α) (k : Nat) :
    Except Err Unit × PQ α × Nat :=
  if q.elementCount = 0 then (.error .empty, q, k)
  else
    match q.root with
    | .nil => (.error .invalid, q, k)
    | .node _ l r =>
      match merge_nodes q.comp failAt l r k with
      | .ok (m, k2) => (.ok (), ⟨m, q.elementCount - 1, q.comp⟩, k2)
      | .error k2 => (.error .cmpFail, q, k2)

/-- Translation of top: empty queues signal container_is_empty, otherwise
the value held at the root node is returned. -/
def top (q : PQ α) : Except Err α :=
  if q.elementCount = 0 then .error .empty
  else
    match q.root with
    | .nil => .error .invalid
    | .node v _ _ => .ok v

/-- Translation of merge: sameObject models the this-equals-other pointer
check, which short-circuits before anything else runs.  Otherwise the two
roots are merged with the recipient's comparison; on success the recipient
gets the merged tree and the summed count while the donor becomes empty,
and on a comparison failure both queues are returned unchanged. -/
def merge (failAt : Nat → Bool) (sameObject : Bool) (q other : PQ α)
    (k : Nat) : Except Err Unit × PQ α × PQ α × Nat :=
  if sameObject then (.ok (), q, other, k)
  else
    match merge_nodes q.comp failAt q.root other.root k with
    | .ok (t, k2) =>
        (.ok (), ⟨t, q.elementCount + other.elementCount, q.comp⟩,
          ⟨.nil, 0, other.comp⟩, k2)
    | .error k2 => (.error .cmpFail, q, other, k2)

/-- Translation of clone_nodes: deep copy of a tree, one fresh node per
source node, copying the value first and then the two subtrees.  copyFail
says which values make the element copy (or the enclosing allocation)
fail; a failure in a subtree propagates after the frame's local cleanup,
whose accounting is modelled separately by clone_acct. -/
def clone_nodes (copyFail : α → Bool) : Tree α → Except Err (Tree α)
  | .nil => .ok .nil
  | .node v l r =>
    if copyFail v then .error .alloc
    else
      match clone_nodes copyFail l with
      | .error e => .error e
      | .ok l2 =>
        match clone_nodes copyFail r with
        | .error e => .error e
        | .ok r2 => .ok (.node v l2 r2)

/-- Translation of the copy-assignment operator: sameObject models the
self-assignment pointer check.  Otherwise the source graph is cloned into
a temporary first; only if the clone fully succeeds is the old graph of
the destination discarded and the new root, count and comparison adopted.
On a clone failure the destination is returned untouched. -/
def assign (copyFail : α → Bool) (sameObject : Bool) (dst src : PQ α) :
    Except Err Unit × PQ α :=
  if sameObject then (.ok (), dst)
  else
    match clone_nodes copyFail src.root with
    | .error e => (.error e, dst)
    | .ok t => (.ok (), ⟨t, src.elementCount, src.comp⟩)

/-- Allocation accounting for clone_nodes: the same recursion instrumented
with the number of nodes allocated by the call and, on failure, the number
of nodes freed before the failure propagates.  A frame whose value copy
fails allocates nothing (the raw memory of the failed new-expression is
released by the language); a frame whose left clone fails frees its own
node; a frame whose right clone fails frees its own node together with the
already-built left copy, exactly as the clear_nodes call in the catch
block does. -/
def clone_acct (copyFail : α → Bool) : Tree α → Except (Nat × Nat) (Tree α × Nat)
  | .nil => .ok (.nil, 0)
  | .node v l r =>
    if copyFail v then .error (0, 0)
    else
      match clone_acct copyFail l with
      | .error (a, f) => .error (a + 1, f + 1)
      | .ok (l2, al) =>
        match clone_acct copyFail r with
        | .error (a, f) => .error (al + a + 1, f + l2.size + 1)
        | .ok (r2, ar) => .ok (.node v l2 r2, al + ar + 1)

/-- Allocation accounting for push: if the new-expression for the fresh
node fails nothing was allocated and nothing is freed; if the merge fails
the one allocated node is detached and freed in the catch block; on
success the one allocated node is linked into the structure and nothing is
freed. -/
def push_acct (allocFail : Bool) (failAt : Nat → Bool) (q : PQ α) (e : α)
    (k : Nat) : Except (Err × Nat × Nat) (PQ α × Nat × Nat) :=
  if allocFail then .error (.alloc, 0, 0)
  else
    match merge_nodes q.comp failAt q.root (.node e .nil .nil) k with
    | .ok (t, _) => .ok (⟨t, q.elementCount + 1, q.comp⟩, 1, 0)
    | .error _ => .error (.cmpFail, 1, 1)

/-- Queue states reachable from a freshly constructed empty queue with
comparison comp by any sequence of push, pop, merge and copy-assignment
calls, each with an arbitrary failure schedule and an arbitrary outcome
(failed calls return the pre-call state, matching the store-level rollback
theorem). -/
inductive Reach (comp : α → α → Bool) : PQ α → Prop where
  | init : Reach comp ⟨.nil, 0, comp⟩
  | pushStep : ∀ {q : PQ α} (failAt : Nat → Bool) (e : α) (k : Nat)
      {r : Except Err Unit} {q2 : PQ α} {k2 : Nat}, Reach comp q →
      push failAt q e k = (r, q2, k2) → Reach comp q2
  | popStep : ∀ {q : PQ α} (failAt : Nat → Bool) (k : Nat)
      {r : Except Err Unit} {q2 : PQ α} {k2 : Nat}, Reach comp q →
      pop failAt q k = (r, q2, k2) → Reach comp q2
  | mergeRecip : ∀ {q o : PQ α} (failAt : Nat → Bool) (k : Nat)
      {r : Except Err Unit} {q2 o2 : PQ α} {k2 : Nat}, Reach comp q →
      Reach comp o → merge failAt false q o k = (r, q2, o2, k2) →
      Reach comp q2
  | mergeDonor : ∀ {q o : PQ α} (failAt : Nat → Bool) (k : Nat)
      {r : Except Err Unit} {q2 o2 : PQ α} {k2 : Nat}, Reach comp q →
      Reach comp o → merge failAt false q o k = (r, q2, o2, k2) →
      Reach comp o2
  | assignStep : ∀ {d s : PQ α} (copyFail : α → Bool)
      {r : Except Err Unit} {q2 : PQ α}, Reach comp d → Reach comp s →
      assign copyFail false d s = (r, q2) → Reach comp q2

end Heap

/-- Modelled from the spec: the reference skew-heap merge as described in
section 4.2, written directly from the spec's words (absent side returns
the other; the root not ordered below the other survives, ties keeping the
first argument; the survivor's right child is merged with the other tree
and installed as the new right child; then the survivor's two children are
swapped).  Used only to compare the implementation against the spec. -/
def skewMergeSpec (lt : α → α → Bool) : Tree α → Tree α → Tree α
  | .nil, b => b
  | a, .nil => a
  | .node va la ra, .node vb lb rb =>
    if lt va vb then
      .node vb (skewMergeSpec lt rb (.node va la ra)) lb
    else
      .node va (skewMergeSpec lt ra (.node vb lb rb)) la
termination_by a b => a.size + b.size
decreasing_by
  all_goals simp [Tree.size]
  all_goals omega

/-- A valid strict weak ordering in Bool form: irreflexive, transitive,
and with transitive incomparability.  The spec scopes the ordering-related
guarantees to comparisons that are well-behaved in this sense. -/
def IsSWO (lt : α → α → Bool) : Prop :=
  (∀ x, lt x x = false) ∧
  (∀ x y z, lt x y = true → lt y z = true → lt x z = true) ∧
  (∀ x y z, lt x y = false → lt y x = false → lt y z = false →
    lt z y = false → lt x z = false ∧ lt z x = false)

/-- Pointer-level record of one heap Node: the stored value and the left
and right child pointers, none being the null pointer. -/
structure NodeRec (α : Type) where
  value : α
  left : Option Nat
  right : Option Nat
deriving DecidableEq, Repr

/-- The allocated node graph: an association list from node addresses to
node records.  Reading, child reassignment and shallow deletion are the
only operations the class performs on it. -/
abbrev Store (α : Type) := List (Nat × NodeRec α)

namespace PtrModel

/-- Dereference a node pointer in the store. -/
def findNode : Store α → Nat → Option (NodeRec α)
  | [], _ => none
  | (q, n) :: σ, p => if q = p then some n else findNode σ p

/-- Reassign the two child pointers of the node at address p, keeping its
value: models writing node->left and node->right. -/
def setChildren : Store α → Nat → Option Nat → Option Nat → Store α
  | [], _, _, _ => []
  | (q, n) :: σ, p, l, r =>
    if q = p then (q, ⟨n.value, l, r⟩) :: σ
    else (q, n) :: setChildren σ p l r

/-- Remove the node at address p from the store: models a shallow delete
of a node whose children have already been detached. -/
def removeNode : Store α → Nat → Store α
  | [], _ => []
  | (q, n) :: σ, p => if q = p then σ else (q, n) :: removeNode σ p

/-- An address strictly larger than every address bound in the store, so
certainly unbound: models the fresh address a successful new-expression
returns. -/
def freshPtr (σ : Store α) : Nat := (σ.map Prod.fst).foldr max 0 + 1

/-- Pointer-level translation of merge_nodes, statement by statement.  If
either pointer is null the other is returned and the store is untouched.
Otherwise both nodes are read and the comparison is invoked (failing when
failAt k); on comp(a.value, b.value) the roles swap so s points to the
surviving node.  A MergeGuard snapshots the survivor's children (ns.left,
ns.right) before the recursive merge of its right child with the other
tree: if the recursion fails, the guard restores the snapshot into
whatever store the failure left behind before propagating; if it
succeeds, the survivor's right child is set to the merge result and its
children are swapped, leaving (merge result, original left), and the
guard is committed.  The structural recursion is fed fuel by the facade
operations; exhausted fuel and dangling pointers surface as failures with
the store as it stands, and arise on no store the facade can build. -/
def merge_nodes (lt : α → α → Bool) (failAt : Nat → Bool) :
    Nat → Store α → Option Nat → Option Nat → Nat →
    Except (Store α × Nat) (Store α × Option Nat × Nat)
  | _, σ, none, b, k => .ok (σ, b, k)
  | _, σ, some a, none, k => .ok (σ, some a, k)
  | 0, σ, some _, some _, k => .error (σ, k)
  | fuel + 1, σ, some a, some b, k =>
    match findNode σ a, findNode σ b with
    | some na, some nb =>
      if failAt k then .error (σ, k + 1)
      else
        let s := if lt na.value nb.value then b else a
        let ns := if lt na.value nb.value then nb else na
        let o := if lt na.value nb.value then some a else some b
        match merge_nodes lt failAt fuel σ ns.right o (k + 1) with
        | .error (σ2, k2) => .error (setChildren σ2 s ns.left ns.right, k2)
        | .ok (σ2, nr, k2) => .ok (setChildren σ2 s nr ns.left, some s, k2)
    | _, _ => .error (σ, k)

/-- Pointer-level state of one queue object: its view of the allocated
node graph, the root pointer and the elementCount field. -/
structure SQ (α : Type) where
  store : Store α
  root : Option Nat
  elementCount : Nat
deriving DecidableEq, Repr

/-- Pointer-level push: allocate the fresh node, merge it into the root,
and on success commit the new root and the incremented count.  On failure
the guards have already restored every touched link, the fresh node is
detached and shallow-deleted, and the rest of the pre-call state is kept,
the error carrying the resulting state. -/
def push (lt : α → α → Bool) (failAt : Nat → Bool) (s : SQ α) (e : α)
    (k : Nat) : Except (Err × SQ α × Nat) (SQ α × Nat) :=
  let p := freshPtr s.store
  let σ1 := (p, ⟨e, none, none⟩) :: s.store
  match merge_nodes lt failAt σ1.length σ1 s.root (some p) k with
  | .ok (σ2, r2, k2) => .ok (⟨σ2, r2, s.elementCount + 1⟩, k2)
  | .error (σ2, k2) =>
      .error (.cmpFail, ⟨removeNode σ2 p, s.root, s.elementCount⟩, k2)

/-- Pointer-level pop: empty queues signal container_is_empty; otherwise
the root node is read, its two children are merged, and on success the
old root is detached and shallow-deleted, the merge result becomes the
root and the count is decremented.  On failure the old root is not freed
and the error carries the state the guards restored. -/
def pop (lt : α → α → Bool) (failAt : Nat → Bool) (s : SQ α) (k : Nat) :
    Except (Err × SQ α × Nat) (SQ α × Nat) :=
  if s.elementCount = 0 then .error (.empty, s, k)
  else
    match s.root with
    | none => .error (.invalid, s, k)
    | some rp =>
      match findNode s.store rp with
      | none => .error (.invalid, s, k)
      | some rn =>
        match merge_nodes lt failAt s.store.length s.store rn.left rn.right k with
        | .ok (σ2, m, k2) => .ok (⟨removeNode σ2 rp, m, s.elementCount - 1⟩, k2)
        | .error (σ2, k2) => .error (.cmpFail, ⟨σ2, s.root, s.elementCount⟩, k2)

/-- Pointer-level merge of two queue objects living in the same allocated
graph, each given by its root pointer and count.  sameObject models the
this-equals-other check.  On success the recipient takes the merged root
and the summed count and the donor becomes empty; on failure the error
carries the store the guards restored together with both unchanged queue
records. -/
def merge (lt : α → α → Bool) (failAt : Nat → Bool) (sameObject : Bool)
    (σ : Store α) (q o : Option Nat × Nat) (k : Nat) :
    Except (Err × Store α × (Option Nat × Nat) × (Option Nat × Nat) × Nat)
      (Store α × (Option Nat × Nat) × (Option Nat × Nat) × Nat) :=
  if sameObject then .ok (σ, q, o, k)
  else
    match merge_nodes lt failAt σ.length σ q.1 o.1 k with
    | .ok (σ2, r2, k2) => .ok (σ2, (r2, q.2 + o.2), (none, 0), k2)
    | .error (σ2, k2) => .error (.cmpFail, σ2, q, o, k2)

/-- A pointer together with a store represents a functional tree: none
represents the empty tree, and a bound address represents a node holding
the record's value whose children represent the two subtrees.  The list
collects the addresses of the represented nodes, root first, left
subtree before right subtree; well-formed ownership (no sharing, no
cycles) is expressed by that list having no duplicates. -/
inductive Rep : Store α → Option Nat → Tree α → List Nat → Prop where
  | nil : ∀ σ, Rep σ none .nil []
  | node : ∀ (σ : Store α) (p : Nat) (v : α) (lp rp : Option Nat)
      (tl tr : Tree α) (dl dr : List Nat),
      findNode σ p = some ⟨v, lp, rp⟩ →
      Rep σ lp tl dl → Rep σ rp tr dr →
      Rep σ (some p) (.node v tl tr) (p :: (dl ++ dr))

end PtrModel

namespace Heap

theorem size_eq_card_elems (t : Tree α) :
    t.size = Multiset.card t.elems := by
  induction t with
  | nil => simp [Tree.size, Tree.elems]
  | node v l r ihl ihr =>
      simp [Tree.size, Tree.elems, ihl, ihr]

theorem merge_nodes_elems {lt : α → α → Bool} {failAt : Nat → Bool} :
    ∀ (a b : Tree α) (k : Nat) (t : Tree α) (k2 : Nat),
      merge_nodes lt failAt a b k = .ok (t, k2) →
      t.elems = a.elems + b.elems := by
  intro a b k
  induction a, b, k using merge_nodes.induct lt failAt with
  | case1 b k =>
      intro t k2 h
      simp [merge_nodes] at h
      obtain ⟨rfl, rfl⟩ := h
      simp [Tree.elems]
  | case2 a k hne =>
      intro t k2 h
      cases a with
      | nil => exact absurd rfl hne
      | node v l r =>
          simp [merge_nodes] at h
          obtain ⟨rfl, rfl⟩ := h
          simp [Tree.elems]
  | case3 va la ra vb lb rb k hfail =>
      intro t k2 h
      simp [merge_nodes, hfail] at h
  | case4 va la ra vb lb rb k hfail hlt k2 hrec ih =>
      intro t k3 h
      simp [merge_nodes, hfail, hlt, hrec] at h
  | case5 va la ra vb lb rb k hfail hlt m k2 hrec ih =>
      intro t k3 h
      simp [merge_nodes, hfail, hlt, hrec] at h
      obtain ⟨rfl, rfl⟩ := h
      have hm := ih m k2 hrec
      simp [Tree.elems, hm]
      rw [Multiset.cons_swap]
      simp only [Multiset.cons_inj_right]
      abel
  | case6 va la ra vb lb rb k hfail hlt k2 hrec ih =>
      intro t k3 h
      simp [merge_nodes, hfail, hlt, hrec] at h
  | case7 va la ra vb lb rb k hfail hlt m k2 hrec ih =>
      intro t k3 h
      simp [merge_nodes, hfail, hlt, hrec] at h
      obtain ⟨rfl, rfl⟩ := h
      have hm := ih m k2 hrec
      simp [Tree.elems, hm]
      abel

theorem merge_nodes_size {lt : α → α → Bool} {failAt : Nat → Bool}
    {a b : Tree α} {k : Nat} {t : Tree α} {k2 : Nat}
    (h : merge_nodes lt failAt a b k = .ok (t, k2)) :
    t.size = a.size + b.size := by
  have h2 := congrArg Multiset.card (merge_nodes_elems a b k t k2 h)
  simp only [Multiset.card_add] at h2
  simp [size_eq_card_elems, h2]

theorem merge_nodes_heapOrd {lt : α → α → Bool} {failAt : Nat → Bool}
    (hasym : ∀ x y : α, lt x y = true → lt y x = false) :
    ∀ (a b : Tree α) (k : Nat) (t : Tree α) (k2 : Nat),
      merge_nodes lt failAt a b k = .ok (t, k2) →
      a.heapOrd lt = true → b.heapOrd lt = true →
      t.heapOrd lt = true ∧
        ∀ x : α, a.rootNotAbove lt x = true → b.rootNotAbove lt x = true →
          t.rootNotAbove lt x = true := by
  intro a b k
  induction a, b, k using merge_nodes.induct lt failAt with
  | case1 b k =>
      intro t k2 h ha hb
      simp [merge_nodes] at h
      obtain ⟨rfl, rfl⟩ := h
      exact ⟨hb, fun x _ hx => hx⟩
  | case2 a k hne =>
      intro t k2 h ha hb
      cases a with
      | nil => exact absurd rfl hne
      | node v l r =>
          simp [merge_nodes] at h
          obtain ⟨rfl, rfl⟩ := h
          exact ⟨ha, fun x hx _ => hx⟩
  | case3 va la ra vb lb rb k hfail =>
      intro t k2 h ha hb
      simp [merge_nodes, hfail] at h
  | case4 va la ra vb lb rb k hfail hlt k2 hrec ih =>
      intro t k3 h ha hb
      simp [merge_nodes, hfail, hlt, hrec] at h
  | case5 va la ra vb lb rb k hfail hlt m k2 hrec ih =>
      intro t k3 h ha hb
      simp [merge_nodes, hfail, hlt, hrec] at h
      obtain ⟨rfl, rfl⟩ := h
      simp only [Tree.heapOrd, Bool.and_eq_true] at ha hb
      obtain ⟨⟨⟨hbl, hbr⟩, hblh⟩, hbrh⟩ := hb
      obtain ⟨⟨⟨hal, har⟩, halh⟩, harh⟩ := ha
      have hvb_a : (Tree.node va la ra).rootNotAbove lt vb = true := by
        simp [Tree.rootNotAbove, hasym va vb hlt]
      obtain ⟨hmh, hmroot⟩ :=
        ih m k2 hrec hbrh (by simp only [Tree.heapOrd, Bool.and_eq_true]; tauto)
      refine ⟨?_, ?_⟩
      · simp only [Tree.heapOrd, Bool.and_eq_true]
        exact ⟨⟨⟨hmroot vb hbr hvb_a, hbl⟩, hmh⟩, hblh⟩
      · intro x hxa hxb
        simpa [Tree.rootNotAbove] using hxb
  | case6 va la ra vb lb rb k hfail hlt k2 hrec ih =>
      intro t k3 h ha hb
      simp [merge_nodes, hfail, hlt, hrec] at h
  | case7 va la ra vb lb rb k hfail hlt m k2 hrec ih =>
      intro t k3 h ha hb
      simp [merge_nodes, hfail, hlt, hrec] at h
      obtain ⟨rfl, rfl⟩ := h
      simp only [Tree.heapOrd, Bool.and_eq_true] at ha hb
      obtain ⟨⟨⟨hal, har⟩, halh⟩, harh⟩ := ha
      have hva_b : (Tree.node vb lb rb).rootNotAbove lt va = true := by
        simp only [Bool.not_eq_true] at hlt
        simp [Tree.rootNotAbove, hlt]
      obtain ⟨hmh, hmroot⟩ :=
        ih m k2 hrec harh (by simp only [Tree.heapOrd, Bool.and_eq_true]; tauto)
      refine ⟨?_, ?_⟩
      · simp only [Tree.heapOrd, Bool.and_eq_true]
        exact ⟨⟨⟨hmroot va har hva_b, hal⟩, hmh⟩, halh⟩
      · intro x hxa hxb
        simpa [Tree.rootNotAbove] using hxa

theorem swo_asym {lt : α → α → Bool} (h : IsSWO lt) :
    ∀ x y : α, lt x y = true → lt y x = false := by
  intro x y hxy
  cases hyx : lt y x with
  | false => rfl
  | true =>
      have hxx := h.2.1 x y x hxy hyx
      simp [h.1 x] at hxx

theorem swo_notBelow_trans {lt : α → α → Bool} (h : IsSWO lt)
    {a b c : α} (hab : lt a b = false) (hbc : lt b c = false) :
    lt a c = false := by
  cases hac : lt a c with
  | false => rfl
  | true =>
      have hcb : lt c b = false := by
        cases hcb : lt c b with
        | false => rfl
        | true =>
            have := h.2.1 a c b hac hcb
            simp [hab] at this
      have hba : lt b a = false := by
        cases hba : lt b a with
        | false => rfl
        | true =>
            have := h.2.1 b a c hba hac
            simp [hbc] at this
      have hinc := (h.2.2 a b c hab hba hbc hcb).1
      simp [hac] at hinc

theorem rootNotAbove_of_notBelow {lt : α → α → Bool} (h : IsSWO lt)
    {x v : α} {t : Tree α} (hxv : lt x v = false)
    (hv : t.rootNotAbove lt v = true) : t.rootNotAbove lt x = true := by
  cases t with
  | nil => rfl
  | node w l r =>
      simp only [Tree.rootNotAbove, Bool.not_eq_eq_eq_not, Bool.not_true] at hv ⊢
      exact swo_notBelow_trans h hxv hv

theorem heapOrd_all_notBelow {lt : α → α → Bool} (h : IsSWO lt) :
    ∀ (t : Tree α) (x : α), t.heapOrd lt = true →
      t.rootNotAbove lt x = true → ∀ y ∈ t.elems, lt x y = false := by
  intro t
  induction t with
  | nil =>
      intro x _ _ y hy
      simp [Tree.elems] at hy
  | node v l r ihl ihr =>
      intro x hh hr y hy
      simp only [Tree.heapOrd, Bool.and_eq_true] at hh
      obtain ⟨⟨⟨hlv, hrv⟩, hlh⟩, hrh⟩ := hh
      simp only [Tree.rootNotAbove, Bool.not_eq_eq_eq_not, Bool.not_true] at hr
      simp only [Tree.elems, Multiset.mem_add, Multiset.mem_singleton] at hy
      rcases hy with (rfl | hy) | hy
      · exact hr
      · exact ihl x hlh (rootNotAbove_of_notBelow h hr hlv) y hy
      · exact ihr x hrh (rootNotAbove_of_notBelow h hr hrv) y hy

theorem clone_nodes_ok {copyFail : α → Bool} :
    ∀ {t t2 : Tree α}, clone_nodes copyFail t = .ok t2 → t2 = t := by
  intro t
  induction t with
  | nil =>
      intro t2 h
      simp [clone_nodes] at h
      exact h.symm
  | node v l r ihl ihr =>
      intro t2 h
      simp only [clone_nodes] at h
      by_cases hcf : copyFail v = true
      · simp [hcf] at h
      · simp only [hcf, Bool.false_eq_true, if_false, if_neg] at h
        cases hl : clone_nodes copyFail l with
        | error e => rw [hl] at h; simp at h
        | ok l2 =>
            rw [hl] at h
            cases hr : clone_nodes copyFail r with
            | error e => rw [hr] at h; simp at h
            | ok r2 =>
                rw [hr] at h
                simp only [Except.ok.injEq] at h
                rw [← h, ihl hl, ihr hr]

theorem clone_acct_ok {copyFail : α → Bool} :
    ∀ {t : Tree α} {t2 : Tree α} {a : Nat},
      clone_acct copyFail t = .ok (t2, a) → a = t2.size := by
  intro t
  induction t with
  | nil =>
      intro t2 a h
      simp [clone_acct] at h
      simp [h.1.symm, h.2.symm, Tree.size]
  | node v l r ihl ihr =>
      intro t2 a h
      simp only [clone_acct] at h
      by_cases hcf : copyFail v = true
      · simp [hcf] at h
      · simp only [hcf, Bool.false_eq_true, if_false, if_neg] at h
        cases hl : clone_acct copyFail l with
        | error e => rw [hl] at h; simp at h
        | ok pl =>
            obtain ⟨l2, al⟩ := pl
            rw [hl] at h
            cases hr : clone_acct copyFail r with
            | error e => rw [hr] at h; simp at h
            | ok pr =>
                obtain ⟨r2, ar⟩ := pr
                rw [hr] at h
                simp only [Except.ok.injEq, Prod.mk.injEq] at h
                obtain ⟨rfl, rfl⟩ := h
                simp [Tree.size, ihl hl, ihr hr]

theorem clone_acct_error {copyFail : α → Bool} :
    ∀ {t : Tree α} {a f : Nat},
      clone_acct copyFail t = .error (a, f) → a = f := by
  intro t
  induction t with
  | nil =>
      intro a f h
      simp [clone_acct] at h
  | node v l r ihl ihr =>
      intro a f h
      simp only [clone_acct] at h
      by_cases hcf : copyFail v = true
      · rw [if_pos hcf] at h
        simp only [Except.error.injEq, Prod.mk.injEq] at h
        omega
      · simp only [hcf, Bool.false_eq_true, if_false, if_neg] at h
        cases hl : clone_acct copyFail l with
        | error pl =>
            obtain ⟨a1, f1⟩ := pl
            rw [hl] at h
            simp only [Except.error.injEq, Prod.mk.injEq] at h
            obtain ⟨rfl, rfl⟩ := h
            have := ihl hl
            omega
        | ok pl =>
            obtain ⟨l2, al⟩ := pl
            rw [hl] at h
            cases hr : clone_acct copyFail r with
            | error pr =>
                obtain ⟨a2, f2⟩ := pr
                rw [hr] at h
                simp only [Except.error.injEq, Prod.mk.injEq] at h
                obtain ⟨rfl, rfl⟩ := h
                have h1 := ihr hr
                have h2 := clone_acct_ok hl
                omega
            | ok pr =>
                obtain ⟨r2, ar⟩ := pr
                rw [hr] at h
                simp at h

theorem merge_nodes_eq_skewMergeSpec (lt : α → α → Bool) :
    ∀ (a b : Tree α) (k : Nat), ∃ k2,
      merge_nodes lt (fun _ => false) a b k
        = .ok (skewMergeSpec lt a b, k2) := by
  intro a b k
  induction a, b, k using merge_nodes.induct lt (fun _ => false) with
  | case1 b k =>
      exact ⟨k, by simp [merge_nodes, skewMergeSpec]⟩
  | case2 a k hne =>
      cases a with
      | nil => exact absurd rfl hne
      | node v l r => exact ⟨k, by simp [merge_nodes, skewMergeSpec]⟩
  | case3 va la ra vb lb rb k hfail =>
      simp at hfail
  | case4 va la ra vb lb rb k hfail hlt k2 hrec ih =>
      obtain ⟨k3, hk3⟩ := ih
      rw [hrec] at hk3
      cases hk3
  | case5 va la ra vb lb rb k hfail hlt m k2 hrec ih =>
      obtain ⟨k3, hk3⟩ := ih
      rw [hrec] at hk3
      simp only [Except.ok.injEq, Prod.mk.injEq] at hk3
      obtain ⟨rfl, rfl⟩ := hk3
      refine ⟨k2, ?_⟩
      simp [merge_nodes, skewMergeSpec, hlt, hrec]
  | case6 va la ra vb lb rb k hfail hlt k2 hrec ih =>
      obtain ⟨k3, hk3⟩ := ih
      rw [hrec] at hk3
      cases hk3
  | case7 va la ra vb lb rb k hfail hlt m k2 hrec ih =>
      obtain ⟨k3, hk3⟩ := ih
      rw [hrec] at hk3
      simp only [Except.ok.injEq, Prod.mk.injEq] at hk3
      obtain ⟨rfl, rfl⟩ := hk3
      refine ⟨k2, ?_⟩
      simp [merge_nodes, skewMergeSpec, hlt, hrec]

theorem push_cases {failAt : Nat → Bool} {q : PQ α} {e : α} {k : Nat}
    {r : Except Err Unit} {q2 : PQ α} {k2 : Nat}
    (heq : push failAt q e k = (r, q2, k2)) :
    (r = .error .cmpFail ∧ q2 = q) ∨
      (r = .ok () ∧ ∃ t,
        merge_nodes q.comp failAt q.root (.node e .nil .nil) k = .ok (t, k2) ∧
        q2 = ⟨t, q.elementCount + 1, q.comp⟩) := by
  unfold push at heq
  cases hm : merge_nodes q.comp failAt q.root (.node e .nil .nil) k with
  | ok p =>
      obtain ⟨t, k3⟩ := p
      rw [hm] at heq
      simp only [Prod.mk.injEq] at heq
      obtain ⟨hr, hq2, hk⟩ := heq
      exact .inr ⟨hr.symm, t, by rw [hk], hq2.symm⟩
  | error k3 =>
      rw [hm] at heq
      simp only [Prod.mk.injEq] at heq
      exact .inl ⟨heq.1.symm, heq.2.1.symm⟩

theorem pop_cases {failAt : Nat → Bool} {q : PQ α} {k : Nat}
    {r : Except Err Unit} {q2 : PQ α} {k2 : Nat}
    (heq : pop failAt q k = (r, q2, k2)) :
    q2 = q ∨ ∃ v l r2 m, q.root = .node v l r2 ∧
      merge_nodes q.comp failAt l r2 k = .ok (m, k2) ∧
      q2 = ⟨m, q.elementCount - 1, q.comp⟩ ∧ q.elementCount ≠ 0 := by
  unfold pop at heq
  split at heq
  next hc =>
    simp only [Prod.mk.injEq] at heq
    exact .inl heq.2.1.symm
  next hc =>
    split at heq
    next hroot =>
      simp only [Prod.mk.injEq] at heq
      exact .inl heq.2.1.symm
    next v l r2 hroot =>
      split at heq
      next m k3 hm =>
        simp only [Prod.mk.injEq] at heq
        obtain ⟨hr, hq2, hk⟩ := heq
        exact .inr ⟨v, l, r2, m, hroot, hk ▸ hm, hq2.symm, hc⟩
      next k3 hm =>
        simp only [Prod.mk.injEq] at heq
        exact .inl heq.2.1.symm

theorem merge_cases {failAt : Nat → Bool} {q o : PQ α} {k : Nat}
    {r : Except Err Unit} {q2 o2 : PQ α} {k2 : Nat}
    (heq : merge failAt false q o k = (r, q2, o2, k2)) :
    (r = .error .cmpFail ∧ q2 = q ∧ o2 = o) ∨ ∃ t,
      r = .ok () ∧
      merge_nodes q.comp failAt q.root o.root k = .ok (t, k2) ∧
      q2 = ⟨t, q.elementCount + o.elementCount, q.comp⟩ ∧
      o2 = ⟨.nil, 0, o.comp⟩ := by
  unfold merge at heq
  rw [if_neg (by simp)] at heq
  cases hm : merge_nodes q.comp failAt q.root o.root k with
  | ok p =>
      obtain ⟨t, k3⟩ := p
      rw [hm] at heq
      simp only [Prod.mk.injEq] at heq
      obtain ⟨hr, hq2, ho2, hk⟩ := heq
      exact .inr ⟨t, hr.symm, by rw [hk], hq2.symm, ho2.symm⟩
  | error k3 =>
      rw [hm] at heq
      simp only [Prod.mk.injEq] at heq
      exact .inl ⟨heq.1.symm, heq.2.1.symm, heq.2.2.1.symm⟩

theorem assign_cases {copyFail : α → Bool} {d s : PQ α}
    {r : Except Err Unit} {q2 : PQ α}
    (heq : assign copyFail false d s = (r, q2)) :
    (∃ e, r = .error e ∧ q2 = d) ∨
      (r = .ok () ∧ ∃ t, clone_nodes copyFail s.root = .ok t ∧
        q2 = ⟨t, s.elementCount, s.comp⟩) := by
  unfold assign at heq
  rw [if_neg (by simp)] at heq
  cases hm : clone_nodes copyFail s.root with
  | ok t =>
      rw [hm] at heq
      simp only [Prod.mk.injEq] at heq
      exact .inr ⟨heq.1.symm, t, rfl, heq.2.symm⟩
  | error e =>
      rw [hm] at heq
      simp only [Prod.mk.injEq] at heq
      exact .inl ⟨e, heq.1.symm, heq.2.symm⟩

theorem reach_comp {comp : α → α → Bool} {q : PQ α}
    (h : Reach comp q) : q.comp = comp := by
  induction h with
  | init => rfl
  | pushStep failAt e k hq heq ih =>
      rcases push_cases heq with ⟨-, rfl⟩ | ⟨-, t, -, rfl⟩ <;> simpa using ih
  | popStep failAt k hq heq ih =>
      rcases pop_cases heq with rfl | ⟨v, l, r2, m, -, -, rfl, -⟩ <;>
        simpa using ih
  | mergeRecip failAt k hq ho heq ihq iho =>
      rcases merge_cases heq with ⟨-, rfl, -⟩ | ⟨t, -, -, rfl, -⟩ <;> simpa using ihq
  | mergeDonor failAt k hq ho heq ihq iho =>
      rcases merge_cases heq with ⟨-, -, rfl⟩ | ⟨t, -, -, -, rfl⟩ <;> simpa using iho
  | assignStep copyFail hd hs heq ihd ihs =>
      rcases assign_cases heq with ⟨e, -, rfl⟩ | ⟨-, t, -, rfl⟩
      · exact ihd
      · simpa using ihs

theorem reach_count {comp : α → α → Bool} {q : PQ α}
    (h : Reach comp q) : q.elementCount = q.root.size := by
  induction h with
  | init => rfl
  | pushStep failAt e k hq heq ih =>
      rcases push_cases heq with ⟨-, rfl⟩ | ⟨-, t, hm, rfl⟩
      · exact ih
      · have hsz := merge_nodes_size hm
        simp only [hsz, Tree.size, ih]
  | popStep failAt k hq heq ih =>
      rcases pop_cases heq with rfl | ⟨v, l, r2, m, hroot, hm, rfl, hc⟩
      · exact ih
      · have hsz := merge_nodes_size hm
        have hq2 := ih
        rw [hroot] at hq2
        simp only [Tree.size] at hq2
        simp only [hsz, hq2]
        omega
  | mergeRecip failAt k hq ho heq ihq iho =>
      rcases merge_cases heq with ⟨-, rfl, -⟩ | ⟨t, -, hm, rfl, -⟩
      · exact ihq
      · have hsz := merge_nodes_size hm
        simp only [hsz, ihq, iho]
  | mergeDonor failAt k hq ho heq ihq iho =>
      rcases merge_cases heq with ⟨-, -, rfl⟩ | ⟨t, -, -, -, rfl⟩
      · exact iho
      · rfl
  | assignStep copyFail hd hsrc heq ihd ihs =>
      rcases assign_cases heq with ⟨e, -, rfl⟩ | ⟨-, t, hcl, rfl⟩
      · exact ihd
      · have ht := clone_nodes_ok hcl
        simp only [ht, ihs]

theorem reach_heapOrd {comp : α → α → Bool}
    (hasym : ∀ x y : α, comp x y = true → comp y x = false) {q : PQ α}
    (h : Reach comp q) : q.root.heapOrd comp = true := by
  induction h with
  | init => rfl
  | pushStep failAt e k hq heq ih =>
      rcases push_cases heq with ⟨-, rfl⟩ | ⟨-, t, hm, rfl⟩
      · exact ih
      · rw [reach_comp hq] at hm
        exact (merge_nodes_heapOrd hasym _ _ _ _ _ hm ih
          (by simp [Tree.heapOrd, Tree.rootNotAbove])).1
  | popStep failAt k hq heq ih =>
      rcases pop_cases heq with rfl | ⟨v, l, r2, m, hroot, hm, rfl, -⟩
      · exact ih
      · rw [reach_comp hq] at hm
        rw [hroot] at ih
        simp only [Tree.heapOrd, Bool.and_eq_true] at ih
        obtain ⟨⟨⟨h1, h2⟩, h3⟩, h4⟩ := ih
        exact (merge_nodes_heapOrd hasym _ _ _ _ _ hm h3 h4).1
  | mergeRecip failAt k hq ho heq ihq iho =>
      rcases merge_cases heq with ⟨-, rfl, -⟩ | ⟨t, -, hm, rfl, -⟩
      · exact ihq
      · rw [reach_comp hq] at hm
        exact (merge_nodes_heapOrd hasym _ _ _ _ _ hm ihq iho).1
  | mergeDonor failAt k hq ho heq ihq iho =>
      rcases merge_cases heq with ⟨-, -, rfl⟩ | ⟨t, -, -, -, rfl⟩
      · exact iho
      · rfl
  | assignStep copyFail hd hsrc heq ihd ihs =>
      rcases assign_cases heq with ⟨e, -, rfl⟩ | ⟨-, t, hcl, rfl⟩
      · exact ihd
      · have ht := clone_nodes_ok hcl
        simp only [ht]
        exact ihs

end Heap

namespace PtrModel

theorem setChildren_self {σ : Store α} {p : Nat} {n : NodeRec α}
    (h : findNode σ p = some n) : setChildren σ p n.left n.right = σ := by
  induction σ with
  | nil => rfl
  | cons hd tl ih =>
      obtain ⟨pq, rec⟩ := hd
      simp only [findNode] at h
      simp only [setChildren]
      by_cases hpq : pq = p
      · rw [if_pos hpq] at h ⊢
        injection h with h
        rw [← h]
      · rw [if_neg hpq] at h ⊢
        rw [ih h]

theorem merge_nodes_error {lt : α → α → Bool} {failAt : Nat → Bool} :
    ∀ (fuel : Nat) (σ : Store α) (a b : Option Nat) (k : Nat)
      (σ2 : Store α) (k2 : Nat),
      merge_nodes lt failAt fuel σ a b k = .error (σ2, k2) → σ2 = σ := by
  intro fuel
  induction fuel with
  | zero =>
      intro σ a b k σ2 k2 h
      cases a with
      | none => simp [merge_nodes] at h
      | some a =>
          cases b with
          | none => simp [merge_nodes] at h
          | some b =>
              simp only [merge_nodes, Except.error.injEq, Prod.mk.injEq] at h
              exact h.1.symm
  | succ fuel ih =>
      intro σ a b k σ2 k2 h
      cases a with
      | none => simp [merge_nodes] at h
      | some a =>
          cases b with
          | none => simp [merge_nodes] at h
          | some b =>
              simp only [merge_nodes] at h
              split at h
              next na nb hna hnb =>
                split at h
                next hfail =>
                  simp only [Except.error.injEq, Prod.mk.injEq] at h
                  exact h.1.symm
                next hfail =>
                  split at h
                  next σ3 k3 hrec =>
                    simp only [Except.error.injEq, Prod.mk.injEq] at h
                    have hσ3 := ih σ _ _ (k + 1) σ3 k3 hrec
                    subst hσ3
                    by_cases hcmp : lt na.value nb.value = true
                    · simp only [hcmp, if_true] at h
                      rw [← h.1, setChildren_self hnb]
                    · simp only [hcmp, if_false, Bool.false_eq_true] at h
                      rw [← h.1, setChildren_self hna]
                  next σ3 r3 k3 hrec =>
                    simp at h
              next hother =>
                simp only [Except.error.injEq, Prod.mk.injEq] at h
                exact h.1.symm

theorem push_error {lt : α → α → Bool} {failAt : Nat → Bool} {s : SQ α}
    {e : α} {k : Nat} {err : Err} {s2 : SQ α} {k2 : Nat}
    (h : push lt failAt s e k = .error (err, s2, k2)) : s2 = s := by
  simp only [push] at h
  split at h
  next σ3 r3 k3 hm => simp at h
  next σ3 k3 hm =>
      have hσ3 := merge_nodes_error _ _ _ _ _ _ _ hm
      subst hσ3
      simp only [Except.error.injEq, Prod.mk.injEq] at h
      rw [← h.2.1]
      simp [removeNode]

theorem pop_error {lt : α → α → Bool} {failAt : Nat → Bool} {s : SQ α}
    {k : Nat} {err : Err} {s2 : SQ α} {k2 : Nat}
    (h : pop lt failAt s k = .error (err, s2, k2)) : s2 = s := by
  simp only [pop] at h
  split at h
  next hc =>
    simp only [Except.error.injEq, Prod.mk.injEq] at h
    exact h.2.1.symm
  next hc =>
    split at h
    next hroot =>
      simp only [Except.error.injEq, Prod.mk.injEq] at h
      exact h.2.1.symm
    next rp hroot =>
      split at h
      next hfind =>
        simp only [Except.error.injEq, Prod.mk.injEq] at h
        exact h.2.1.symm
      next rn hfind =>
        split at h
        next σ3 m k3 hm => simp at h
        next σ3 k3 hm =>
          have hσ3 := merge_nodes_error _ _ _ _ _ _ _ hm
          subst hσ3
          simp only [Except.error.injEq, Prod.mk.injEq] at h
          rw [← h.2.1]

theorem merge_error {lt : α → α → Bool} {failAt : Nat → Bool}
    {σ : Store α} {q o : Option Nat × Nat} {k : Nat} {err : Err}
    {σ2 : Store α} {q2 o2 : Option Nat × Nat} {k2 : Nat}
    (h : merge lt failAt false σ q o k = .error (err, σ2, q2, o2, k2)) :
    σ2 = σ ∧ q2 = q ∧ o2 = o := by
  simp only [merge, if_neg (by simp : ¬false = true)] at h
  split at h
  next σ3 r3 k3 hm => simp at h
  next σ3 k3 hm =>
    have hσ3 := merge_nodes_error _ _ _ _ _ _ _ hm
    subst hσ3
    simp only [Except.error.injEq, Prod.mk.injEq] at h
    exact ⟨h.2.1.symm, h.2.2.1.symm, h.2.2.2.1.symm⟩

theorem findNode_setChildren_ne {σ : Store α} {p q : Nat} (h : p ≠ q)
    (l r : Option Nat) :
    findNode (setChildren σ p l r) q = findNode σ q := by
  induction σ with
  | nil => rfl
  | cons hd tl ih =>
      obtain ⟨a, n⟩ := hd
      simp only [setChildren]
      by_cases hap : a = p
      · subst hap
        rw [if_pos rfl]
        simp only [findNode, if_neg h]
      · rw [if_neg hap]
        simp only [findNode]
        by_cases haq : a = q
        · rw [if_pos haq, if_pos haq]
        · rw [if_neg haq, if_neg haq, ih]

theorem findNode_setChildren_eq {σ : Store α} {p : Nat} {n : NodeRec α}
    (h : findNode σ p = some n) (l r : Option Nat) :
    findNode (setChildren σ p l r) p = some ⟨n.value, l, r⟩ := by
  induction σ with
  | nil => simp [findNode] at h
  | cons hd tl ih =>
      obtain ⟨a, m⟩ := hd
      simp only [findNode] at h
      simp only [setChildren]
      by_cases hap : a = p
      · rw [if_pos hap] at h ⊢
        simp only [findNode, if_pos hap]
        injection h with h
        rw [h]
      · rw [if_neg hap] at h ⊢
        simp only [findNode, if_neg hap]
        exact ih h

theorem Rep_frame {σ σ2 : Store α} {r : Option Nat} {t : Tree α}
    {d : List Nat} (h : Rep σ r t d)
    (hagree : ∀ q ∈ d, findNode σ2 q = findNode σ q) : Rep σ2 r t d := by
  induction h with
  | nil => exact Rep.nil σ2
  | node p v lp rp tl tr dl dr hf hl hr ihl ihr =>
      refine Rep.node σ2 p v lp rp tl tr dl dr ?_ ?_ ?_
      · rw [hagree p (by simp)]
        exact hf
      · exact ihl (fun q hq => hagree q (by simp [hq]))
      · exact ihr (fun q hq => hagree q (by simp [hq]))

theorem merge_nodes_sim_error {lt : α → α → Bool} {failAt : Nat → Bool} :
    ∀ (fuel : Nat) (σ : Store α) (ra : Option Nat) (ta : Tree α)
      (da : List Nat) (rb : Option Nat) (tb : Tree α) (db : List Nat)
      (k k2 : Nat),
      Rep σ ra ta da → Rep σ rb tb db →
      da.length + db.length ≤ fuel →
      Heap.merge_nodes lt failAt ta tb k = .error k2 →
      merge_nodes lt failAt fuel σ ra rb k = .error (σ, k2) := by
  intro fuel
  induction fuel with
  | zero =>
      intro σ ra ta da rb tb db k k2 hA hB hlen htree
      cases hA with
      | nil => simp [Heap.merge_nodes] at htree
      | node pa va lpa rpa tla tra dla dra hfa hla hra =>
          cases hB with
          | nil => simp [Heap.merge_nodes] at htree
          | node pb vb lpb rpb tlb trb dlb drb hfb hlb hrb =>
              simp at hlen
  | succ fuel ih =>
      intro σ ra ta da rb tb db k k2 hA hB hlen htree
      cases hA with
      | nil => simp [Heap.merge_nodes] at htree
      | node pa va lpa rpa tla tra dla dra hfa hla hra =>
          cases hB with
          | nil => simp [Heap.merge_nodes] at htree
          | node pb vb lpb rpb tlb trb dlb drb hfb hlb hrb =>
              simp only [Heap.merge_nodes] at htree
              simp only [merge_nodes, hfa, hfb]
              by_cases hfail : failAt k = true
              · simp only [hfail, if_true] at htree ⊢
                simp only [Except.error.injEq] at htree
                rw [htree]
              · simp only [hfail, Bool.false_eq_true, if_false, if_neg] at htree ⊢
                by_cases hlt : lt va vb = true
                · simp only [hlt, if_true] at htree ⊢
                  cases hrec : Heap.merge_nodes lt failAt trb (.node va tla tra) (k + 1) with
                  | ok p2 =>
                      obtain ⟨m, k3⟩ := p2
                      rw [hrec] at htree
                      simp at htree
                  | error k3 =>
                      rw [hrec] at htree
                      simp only [Except.error.injEq] at htree
                      subst htree
                      have hstore := ih σ rpb trb drb (some pa)
                        (.node va tla tra) (pa :: (dla ++ dra)) (k + 1) k3 hrb
                        (Rep.node σ pa va lpa rpa tla tra dla dra hfa hla hra)
                        (by simp at hlen ⊢; omega) hrec
                      rw [hstore]
                      exact congrArg (fun x => Except.error (x, k3))
                        (setChildren_self hfb)
                · simp only [hlt, Bool.false_eq_true, if_false, if_neg] at htree ⊢
                  cases hrec : Heap.merge_nodes lt failAt tra (.node vb tlb trb) (k + 1) with
                  | ok p2 =>
                      obtain ⟨m, k3⟩ := p2
                      rw [hrec] at htree
                      simp at htree
                  | error k3 =>
                      rw [hrec] at htree
                      simp only [Except.error.injEq] at htree
                      subst htree
                      have hstore := ih σ rpa tra dra (some pb)
                        (.node vb tlb trb) (pb :: (dlb ++ drb)) (k + 1) k3 hra
                        (Rep.node σ pb vb lpb rpb tlb trb dlb drb hfb hlb hrb)
                        (by simp at hlen ⊢; omega) hrec
                      rw [hstore]
                      exact congrArg (fun x => Except.error (x, k3))
                        (setChildren_self hfa)

theorem merge_nodes_sim_ok {lt : α → α → Bool} {failAt : Nat → Bool} :
    ∀ (fuel : Nat) (σ : Store α) (ra : Option Nat) (ta : Tree α)
      (da : List Nat) (rb : Option Nat) (tb : Tree α) (db : List Nat)
      (k : Nat) (t : Tree α) (k2 : Nat),
      Rep σ ra ta da → Rep σ rb tb db → (da ++ db).Nodup →
      da.length + db.length ≤ fuel →
      Heap.merge_nodes lt failAt ta tb k = .ok (t, k2) →
      ∃ (σ2 : Store α) (r2 : Option Nat) (d2 : List Nat),
        merge_nodes lt failAt fuel σ ra rb k = .ok (σ2, r2, k2) ∧
        Rep σ2 r2 t d2 ∧ d2.Perm (da ++ db) ∧
        ∀ q : Nat, q ∉ da → q ∉ db → findNode σ2 q = findNode σ q := by
  intro fuel
  induction fuel with
  | zero =>
      intro σ ra ta da rb tb db k t k2 hA hB hnd hlen htree
      cases hA with
      | nil =>
          simp [Heap.merge_nodes] at htree
          obtain ⟨rfl, rfl⟩ := htree
          exact ⟨σ, rb, db, rfl, hB, by simp, fun q _ _ => rfl⟩
      | node pa va lpa rpa tla tra dla dra hfa hla hra =>
          cases hB with
          | nil =>
              simp [Heap.merge_nodes] at htree
              obtain ⟨rfl, rfl⟩ := htree
              exact ⟨σ, some pa, pa :: (dla ++ dra), rfl,
                Rep.node σ pa va lpa rpa tla tra dla dra hfa hla hra,
                by simp, fun q _ _ => rfl⟩
          | node pb vb lpb rpb tlb trb dlb drb hfb hlb hrb =>
              simp at hlen
  | succ fuel ih =>
      intro σ ra ta da rb tb db k t k2 hA hB hnd hlen htree
      cases hA with
      | nil =>
          simp [Heap.merge_nodes] at htree
          obtain ⟨rfl, rfl⟩ := htree
          exact ⟨σ, rb, db, rfl, hB, by simp, fun q _ _ => rfl⟩
      | node pa va lpa rpa tla tra dla dra hfa hla hra =>
          cases hB with
          | nil =>
              simp [Heap.merge_nodes] at htree
              obtain ⟨rfl, rfl⟩ := htree
              exact ⟨σ, some pa, pa :: (dla ++ dra), rfl,
                Rep.node σ pa va lpa rpa tla tra dla dra hfa hla hra,
                by simp, fun q _ _ => rfl⟩
          | node pb vb lpb rpb tlb trb dlb drb hfb hlb hrb =>
              have hndA : (pa :: (dla ++ dra)).Nodup :=
                (List.nodup_append.1 hnd).1
              have hndB : (pb :: (dlb ++ drb)).Nodup :=
                (List.nodup_append.1 hnd).2.1
              have hdisj : (pa :: (dla ++ dra)).Disjoint (pb :: (dlb ++ drb)) :=
                (List.nodup_append.1 hnd).2.2
              simp only [Heap.merge_nodes] at htree
              by_cases hfail : failAt k = true
              · simp [hfail] at htree
              · simp only [hfail, Bool.false_eq_true, if_false, if_neg] at htree
                by_cases hlt : lt va vb = true
                · simp only [hlt, if_true] at htree
                  cases hrec : Heap.merge_nodes lt failAt trb
                      (.node va tla tra) (k + 1) with
                  | error k3 =>
                      rw [hrec] at htree
                      simp at htree
                  | ok p2 =>
                      obtain ⟨m, k3⟩ := p2
                      rw [hrec] at htree
                      simp only [Except.ok.injEq, Prod.mk.injEq] at htree
                      obtain ⟨rfl, rfl⟩ := htree
                      have hdrb_nodup : drb.Nodup :=
                        List.Nodup.of_append_right (List.nodup_cons.1 hndB).2
                      have hnd1 : (drb ++ (pa :: (dla ++ dra))).Nodup := by
                        refine List.nodup_append_comm.2 ?_
                        refine List.Nodup.append hndA hdrb_nodup ?_
                        intro x hx hxd
                        exact hdisj hx (by simp [hxd])
                      have hfuel1 : drb.length + (pa :: (dla ++ dra)).length
                          ≤ fuel := by
                        simp at hlen ⊢
                        omega
                      obtain ⟨σ2, r2, d2, hstore, hrep2, hperm2, hframe2⟩ :=
                        ih σ rpb trb drb (some pa) (.node va tla tra)
                          (pa :: (dla ++ dra)) (k + 1) m k3 hrb
                          (Rep.node σ pa va lpa rpa tla tra dla dra hfa hla hra)
                          hnd1 hfuel1 hrec
                      have hpb_notin_drb : pb ∉ drb := fun hx =>
                        (List.nodup_cons.1 hndB).1 (by simp [hx])
                      have hpb_notin_da : pb ∉ pa :: (dla ++ dra) := fun hx =>
                        hdisj hx (by simp)
                      have hpb_notin_rec : pb ∉ drb ++ (pa :: (dla ++ dra)) := by
                        simp only [List.mem_append]
                        rintro (h1 | h2)
                        · exact hpb_notin_drb h1
                        · exact hpb_notin_da h2
                      have hfind2 : findNode σ2 pb = some ⟨vb, lpb, rpb⟩ := by
                        rw [hframe2 pb hpb_notin_drb hpb_notin_da]
                        exact hfb
                      refine ⟨setChildren σ2 pb r2 lpb, some pb,
                        pb :: (d2 ++ dlb), ?_, ?_, ?_, ?_⟩
                      · simp only [merge_nodes, hfa, hfb]
                        simp only [hfail, Bool.false_eq_true, if_false,
                          if_neg, hlt, if_true]
                        rw [hstore]
                      · refine Rep.node (setChildren σ2 pb r2 lpb) pb vb r2
                          lpb m tlb d2 dlb ?_ ?_ ?_
                        · exact findNode_setChildren_eq hfind2 r2 lpb
                        · refine Rep_frame hrep2 ?_
                          intro q hq
                          have hqmem := hperm2.subset hq
                          have hqne : pb ≠ q := fun he =>
                            hpb_notin_rec (he ▸ hqmem)
                          exact findNode_setChildren_ne hqne r2 lpb
                        · refine Rep_frame hlb ?_
                          intro q hq
                          have hq_ndrb : q ∉ drb :=
                            List.disjoint_of_nodup_append
                              (List.nodup_cons.1 hndB).2 hq
                          have hq_nda : q ∉ pa :: (dla ++ dra) := by
                            intro hx
                            exact hdisj hx (by simp [hq])
                          have hq_ne : pb ≠ q := by
                            intro he
                            exact (List.nodup_cons.1 hndB).1
                              (by simp [he ▸ hq])
                          rw [findNode_setChildren_ne hq_ne r2 lpb]
                          exact hframe2 q hq_ndrb hq_nda
                      · have hm2 : (d2 : Multiset Nat)
                            = ((drb ++ (pa :: (dla ++ dra)) : List Nat) :
                              Multiset Nat) :=
                          Multiset.coe_eq_coe.2 hperm2
                        rw [← Multiset.coe_eq_coe]
                        simp only [← Multiset.cons_coe, ← Multiset.coe_add, hm2]
                        simp only [← Multiset.singleton_add]
                        abel
                      · intro q hqa hqb
                        have hq_ne : pb ≠ q := fun he => hqb (by rw [← he]; simp)
                        rw [findNode_setChildren_ne hq_ne r2 lpb]
                        refine hframe2 q ?_ hqa
                        intro hx
                        exact hqb (by simp [hx])
                · simp only [hlt, Bool.false_eq_true, if_false, if_neg] at htree
                  cases hrec : Heap.merge_nodes lt failAt tra
                      (.node vb tlb trb) (k + 1) with
                  | error k3 =>
                      rw [hrec] at htree
                      simp at htree
                  | ok p2 =>
                      obtain ⟨m, k3⟩ := p2
                      rw [hrec] at htree
                      simp only [Except.ok.injEq, Prod.mk.injEq] at htree
                      obtain ⟨rfl, rfl⟩ := htree
                      have hdra_nodup : dra.Nodup :=
                        List.Nodup.of_append_right (List.nodup_cons.1 hndA).2
                      have hnd1 : (dra ++ (pb :: (dlb ++ drb))).Nodup := by
                        refine List.Nodup.append hdra_nodup hndB ?_
                        intro x hx hxd
                        exact hdisj (by simp [hx]) hxd
                      have hfuel1 : dra.length + (pb :: (dlb ++ drb)).length
                          ≤ fuel := by
                        simp at hlen ⊢
                        omega
                      obtain ⟨σ2, r2, d2, hstore, hrep2, hperm2, hframe2⟩ :=
                        ih σ rpa tra dra (some pb) (.node vb tlb trb)
                          (pb :: (dlb ++ drb)) (k + 1) m k3 hra
                          (Rep.node σ pb vb lpb rpb tlb trb dlb drb hfb hlb hrb)
                          hnd1 hfuel1 hrec
                      have hpa_notin_dra : pa ∉ dra := fun hx =>
                        (List.nodup_cons.1 hndA).1 (by simp [hx])
                      have hpa_notin_db : pa ∉ pb :: (dlb ++ drb) :=
                        hdisj (by simp)
                      have hpa_notin_rec : pa ∉ dra ++ (pb :: (dlb ++ drb)) := by
                        simp only [List.mem_append]
                        rintro (h1 | h2)
                        · exact hpa_notin_dra h1
                        · exact hpa_notin_db h2
                      have hfind2 : findNode σ2 pa = some ⟨va, lpa, rpa⟩ := by
                        rw [hframe2 pa hpa_notin_dra hpa_notin_db]
                        exact hfa
                      refine ⟨setChildren σ2 pa r2 lpa, some pa,
                        pa :: (d2 ++ dla), ?_, ?_, ?_, ?_⟩
                      · simp only [merge_nodes, hfa, hfb]
                        simp only [hfail, Bool.false_eq_true, if_false,
                          if_neg, hlt]
                        rw [hstore]
                      · refine Rep.node (setChildren σ2 pa r2 lpa) pa va r2
                          lpa m tla d2 dla ?_ ?_ ?_
                        · exact findNode_setChildren_eq hfind2 r2 lpa
                        · refine Rep_frame hrep2 ?_
                          intro q hq
                          have hqmem := hperm2.subset hq
                          have hqne : pa ≠ q := fun he =>
                            hpa_notin_rec (he ▸ hqmem)
                          exact findNode_setChildren_ne hqne r2 lpa
                        · refine Rep_frame hla ?_
                          intro q hq
                          have hq_ndra : q ∉ dra :=
                            List.disjoint_of_nodup_append
                              (List.nodup_cons.1 hndA).2 hq
                          have hq_ndb : q ∉ pb :: (dlb ++ drb) :=
                            hdisj (by simp [hq])
                          have hq_ne : pa ≠ q := by
                            intro he
                            exact (List.nodup_cons.1 hndA).1
                              (by simp [he ▸ hq])
                          rw [findNode_setChildren_ne hq_ne r2 lpa]
                          exact hframe2 q hq_ndra hq_ndb
                      · have hm2 : (d2 : Multiset Nat)
                            = ((dra ++ (pb :: (dlb ++ drb)) : List Nat) :
                              Multiset Nat) :=
                          Multiset.coe_eq_coe.2 hperm2
                        rw [← Multiset.coe_eq_coe]
                        simp only [← Multiset.cons_coe, ← Multiset.coe_add, hm2]
                        simp only [← Multiset.singleton_add]
                        abel
                      · intro q hqa hqb
                        have hq_ne : pa ≠ q := fun he => hqa (by rw [← he]; simp)
                        rw [findNode_setChildren_ne hq_ne r2 lpa]
                        refine hframe2 q ?_ hqb
                        intro hx
                        exact hqa (by simp [hx])

theorem findNode_mem_keys {σ : Store α} {q : Nat} {n : NodeRec α}
    (h : findNode σ q = some n) : q ∈ σ.map Prod.fst := by
  induction σ with
  | nil => simp [findNode] at h
  | cons hd tl ih =>
      obtain ⟨a, m⟩ := hd
      simp only [findNode] at h
      by_cases haq : a = q
      · simp [haq]
      · rw [if_neg haq] at h
        simp [ih h]

theorem findNode_not_mem_keys {σ : Store α} {q : Nat}
    (h : q ∉ σ.map Prod.fst) : findNode σ q = none := by
  induction σ with
  | nil => rfl
  | cons hd tl ih =>
      obtain ⟨a, m⟩ := hd
      simp only [List.map_cons, List.mem_cons] at h
      simp only [findNode]
      rw [if_neg (fun he => h (Or.inl he.symm))]
      exact ih (fun hx => h (Or.inr hx))

theorem le_foldr_max : ∀ (l : List Nat) (q : Nat), q ∈ l →
    q ≤ l.foldr max 0 := by
  intro l
  induction l with
  | nil => simp
  | cons a tl ih =>
      intro q hq
      simp only [List.mem_cons] at hq
      simp only [List.foldr]
      rcases hq with rfl | hq
      · exact Nat.le_max_left q _
      · exact Nat.le_trans (ih q hq) (Nat.le_max_right a _)

theorem freshPtr_not_mem (σ : Store α) : freshPtr σ ∉ σ.map Prod.fst := by
  intro hmem
  have := le_foldr_max (σ.map Prod.fst) (freshPtr σ) hmem
  unfold freshPtr at this
  omega

theorem findNode_removeNode_ne {σ : Store α} {p q : Nat} (h : p ≠ q) :
    findNode (removeNode σ p) q = findNode σ q := by
  induction σ with
  | nil => rfl
  | cons hd tl ih =>
      obtain ⟨a, n⟩ := hd
      simp only [removeNode]
      by_cases hap : a = p
      · subst hap
        rw [if_pos rfl]
        simp only [findNode, if_neg h]
      · rw [if_neg hap]
        simp only [findNode]
        by_cases haq : a = q
        · rw [if_pos haq, if_pos haq]
        · rw [if_neg haq, if_neg haq, ih]

theorem Rep_keys {σ : Store α} {r : Option Nat} {t : Tree α} {d : List Nat}
    (h : Rep σ r t d) : ∀ q ∈ d, q ∈ σ.map Prod.fst := by
  induction h with
  | nil => simp
  | node p v lp rp tl tr dl dr hf hl hr ihl ihr =>
      intro q hq
      simp only [List.mem_cons, List.mem_append] at hq
      rcases hq with rfl | hq | hq
      · exact findNode_mem_keys hf
      · exact ihl q hq
      · exact ihr q hq

theorem subset_keys_length_le {σ : Store α} {d : List Nat} (hnd : d.Nodup)
    (hsub : ∀ q ∈ d, q ∈ σ.map Prod.fst) : d.length ≤ σ.length := by
  have h := (hnd.subperm (fun q hq => hsub q hq)).length_le
  simpa using h

theorem push_sim {lt : α → α → Bool} {failAt : Nat → Bool} {σ : Store α}
    {ra : Option Nat} {ta : Tree α} {da : List Nat} (cnt : Nat) (e : α)
    (k : Nat) (hA : Rep σ ra ta da) (hnd : da.Nodup)
    {r : Except Err Unit} {q2 : Heap.PQ α} {k2 : Nat}
    (htree : Heap.push failAt ⟨ta, cnt, lt⟩ e k = (r, q2, k2)) :
    (r = .error .cmpFail →
      push lt failAt ⟨σ, ra, cnt⟩ e k
        = .error (.cmpFail, ⟨σ, ra, cnt⟩, k2)) ∧
    (r = .ok () → ∃ (σ2 : Store α) (r2 : Option Nat) (d2 : List Nat),
      push lt failAt ⟨σ, ra, cnt⟩ e k = .ok (⟨σ2, r2, cnt + 1⟩, k2) ∧
      Rep σ2 r2 q2.root d2) := by
  have hkeys := Rep_keys hA
  have hPne : ∀ q ∈ da, q ≠ freshPtr σ := by
    intro q hq he
    exact freshPtr_not_mem σ (he ▸ hkeys q hq)
  have hrepNew : Rep ((freshPtr σ, ⟨e, none, none⟩) :: σ)
      (some (freshPtr σ)) (.node e .nil .nil) [freshPtr σ] := by
    refine Rep.node _ _ e none none .nil .nil [] [] ?_ (Rep.nil _) (Rep.nil _)
    simp [findNode]
  have hframe1 : ∀ q ∈ da,
      findNode ((freshPtr σ, (⟨e, none, none⟩ : NodeRec α)) :: σ) q
        = findNode σ q := by
    intro q hq
    simp only [findNode]
    rw [if_neg (fun he => hPne q hq he.symm)]
  have hA1 := Rep_frame hA hframe1
  have hnd1 : (da ++ [freshPtr σ]).Nodup := by
    refine List.Nodup.append hnd (by simp) ?_
    intro x hx
    simp only [List.mem_singleton]
    exact hPne x hx
  have hlen1 : da.length + 1
      ≤ ((freshPtr σ, (⟨e, none, none⟩ : NodeRec α)) :: σ).length := by
    have := subset_keys_length_le hnd hkeys
    simp only [List.length_cons]
    omega
  cases hm : Heap.merge_nodes lt failAt ta (.node e .nil .nil) k with
  | error k3 =>
      have hm2 := merge_nodes_sim_error
        ((freshPtr σ, (⟨e, none, none⟩ : NodeRec α)) :: σ).length
        ((freshPtr σ, ⟨e, none, none⟩) :: σ) ra ta da (some (freshPtr σ))
        (.node e .nil .nil) [freshPtr σ] k k3 hA1 hrepNew
        (by simpa using hlen1) hm
      simp only [Heap.push] at htree
      rw [hm] at htree
      simp only [Prod.mk.injEq] at htree
      obtain ⟨hr, hq2, hk⟩ := htree
      constructor
      · intro _
        simp only [push]
        rw [hm2, ← hk]
        simp [removeNode]
      · intro hok
        rw [hok] at hr
        cases hr
  | ok p2 =>
      obtain ⟨t, k3⟩ := p2
      obtain ⟨σ2, r2, d2, hm2, hrep2, hperm2, hframe2⟩ :=
        merge_nodes_sim_ok
          ((freshPtr σ, (⟨e, none, none⟩ : NodeRec α)) :: σ).length
          ((freshPtr σ, ⟨e, none, none⟩) :: σ) ra ta da (some (freshPtr σ))
          (.node e .nil .nil) [freshPtr σ] k t k3 hA1 hrepNew hnd1
          (by simpa using hlen1) hm
      simp only [Heap.push] at htree
      rw [hm] at htree
      simp only [Prod.mk.injEq] at htree
      obtain ⟨hr, hq2, hk⟩ := htree
      constructor
      · intro herr
        rw [herr] at hr
        cases hr
      · intro _
        refine ⟨σ2, r2, d2, ?_, ?_⟩
        · simp only [push]
          rw [hm2, ← hk]
        · rw [← hq2]
          exact hrep2

theorem pop_sim {lt : α → α → Bool} {failAt : Nat → Bool} {σ : Store α}
    {ra : Option Nat} {ta : Tree α} {da : List Nat} (cnt k : Nat)
    (hA : Rep σ ra ta da) (hnd : da.Nodup)
    {r : Except Err Unit} {q2 : Heap.PQ α} {k2 : Nat}
    (htree : Heap.pop failAt ⟨ta, cnt, lt⟩ k = (r, q2, k2)) :
    (∀ e : Err, r = .error e →
      pop lt failAt ⟨σ, ra, cnt⟩ k = .error (e, ⟨σ, ra, cnt⟩, k2)) ∧
    (r = .ok () → ∃ (σ2 : Store α) (r2 : Option Nat) (d2 : List Nat),
      pop lt failAt ⟨σ, ra, cnt⟩ k = .ok (⟨σ2, r2, cnt - 1⟩, k2) ∧
      Rep σ2 r2 q2.root d2) := by
  simp only [Heap.pop] at htree
  by_cases hc : cnt = 0
  · rw [if_pos hc] at htree
    simp only [Prod.mk.injEq] at htree
    obtain ⟨hr, hq2, hk⟩ := htree
    constructor
    · intro e hre
      rw [hre] at hr
      simp only [Except.error.injEq] at hr
      subst hr
      simp only [pop]
      rw [if_pos hc, hk]
    · intro hok
      rw [hok] at hr
      cases hr
  · rw [if_neg hc] at htree
    cases hA with
    | nil =>
        simp only [] at htree
        simp only [Prod.mk.injEq] at htree
        obtain ⟨hr, hq2, hk⟩ := htree
        constructor
        · intro e hre
          rw [hre] at hr
          simp only [Except.error.injEq] at hr
          subst hr
          simp only [pop]
          rw [if_neg hc, hk]
        · intro hok
          rw [hok] at hr
          cases hr
    | node pa va lpa rpa tla tra dla dra hfa hla hra =>
        simp only [] at htree
        have hnd2 : (dla ++ dra).Nodup := (List.nodup_cons.1 hnd).2
        have hsubm : ∀ q ∈ dla ++ dra, q ∈ σ.map Prod.fst := by
          intro q hq
          rcases List.mem_append.1 hq with h1 | h2
          · exact Rep_keys hla q h1
          · exact Rep_keys hra q h2
        have hlen2 : dla.length + dra.length ≤ σ.length := by
          have hsub := subset_keys_length_le hnd2 hsubm
          simpa using hsub
        cases hm : Heap.merge_nodes lt failAt tla tra k with
        | error k3 =>
            have hm2 := merge_nodes_sim_error σ.length σ lpa tla dla rpa
              tra dra k k3 hla hra (by omega) hm
            rw [hm] at htree
            simp only [Prod.mk.injEq] at htree
            obtain ⟨hr, hq2, hk⟩ := htree
            constructor
            · intro e hre
              rw [hre] at hr
              simp only [Except.error.injEq] at hr
              subst hr
              simp only [pop]
              rw [if_neg hc]
              simp only [hfa]
              rw [hm2, hk]
            · intro hok
              rw [hok] at hr
              cases hr
        | ok p2 =>
            obtain ⟨m, k3⟩ := p2
            obtain ⟨σ2, r2, d2, hm2, hrep2, hperm2, hframe2⟩ :=
              merge_nodes_sim_ok σ.length σ lpa tla dla rpa tra dra k m k3
                hla hra hnd2 (by omega) hm
            rw [hm] at htree
            simp only [Prod.mk.injEq] at htree
            obtain ⟨hr, hq2, hk⟩ := htree
            constructor
            · intro e hre
              rw [hre] at hr
              cases hr
            · intro _
              have hpa_notin : pa ∉ dla ++ dra := (List.nodup_cons.1 hnd).1
              refine ⟨removeNode σ2 pa, r2, d2, ?_, ?_⟩
              · simp only [pop]
                rw [if_neg hc]
                simp only [hfa]
                rw [hm2, hk]
              · rw [← hq2]
                refine Rep_frame hrep2 ?_
                intro q hq
                have hqmem := hperm2.subset hq
                have hqne : pa ≠ q := fun he => hpa_notin (he ▸ hqmem)
                exact findNode_removeNode_ne hqne

theorem merge_sim {lt : α → α → Bool} {failAt : Nat → Bool} {σ : Store α}
    {ra : Option Nat} {ta : Tree α} {da : List Nat} {rb : Option Nat}
    {tb : Tree α} {db : List Nat} (ca cb k : Nat)
    (hA : Rep σ ra ta da) (hB : Rep σ rb tb db) (hnd : (da ++ db).Nodup)
    {r : Except Err Unit} {q2 o2 : Heap.PQ α} {k2 : Nat}
    (htree : Heap.merge failAt false ⟨ta, ca, lt⟩ ⟨tb, cb, lt⟩ k
      = (r, q2, o2, k2)) :
    (r = .error .cmpFail →
      merge lt failAt false σ (ra, ca) (rb, cb) k
        = .error (.cmpFail, σ, (ra, ca), (rb, cb), k2)) ∧
    (r = .ok () → ∃ (σ2 : Store α) (r2 : Option Nat) (d2 : List Nat),
      merge lt failAt false σ (ra, ca) (rb, cb) k
        = .ok (σ2, (r2, ca + cb), (none, 0), k2) ∧
      Rep σ2 r2 q2.root d2) := by
  have hsubm : ∀ q ∈ da ++ db, q ∈ σ.map Prod.fst := by
    intro q hq
    rcases List.mem_append.1 hq with h1 | h2
    · exact Rep_keys hA q h1
    · exact Rep_keys hB q h2
  have hlen : da.length + db.length ≤ σ.length := by
    have hsub := subset_keys_length_le hnd hsubm
    simpa using hsub
  simp only [Heap.merge, if_neg (by simp : ¬false = true)] at htree
  cases hm : Heap.merge_nodes lt failAt ta tb k with
  | error k3 =>
      have hm2 := merge_nodes_sim_error σ.length σ ra ta da rb tb db k k3
        hA hB hlen hm
      rw [hm] at htree
      simp only [Prod.mk.injEq] at htree
      obtain ⟨hr, hq2, ho2, hk⟩ := htree
      constructor
      · intro _
        simp only [merge, if_neg (by simp : ¬false = true)]
        rw [hm2, hk]
      · intro hok
        rw [hok] at hr
        cases hr
  | ok p2 =>
      obtain ⟨t, k3⟩ := p2
      obtain ⟨σ2, r2, d2, hm2, hrep2, hperm2, hframe2⟩ :=
        merge_nodes_sim_ok σ.length σ ra ta da rb tb db k t k3 hA hB hnd
          hlen hm
      rw [hm] at htree
      simp only [Prod.mk.injEq] at htree
      obtain ⟨hr, hq2, ho2, hk⟩ := htree
      constructor
      · intro herr
        rw [herr] at hr
        cases hr
      · intro _
        refine ⟨σ2, r2, d2, ?_, ?_⟩
        · simp only [merge, if_neg (by simp : ¬false = true)]
          rw [hm2, hk]
        · rw [← hq2]
          exact hrep2

end PtrModel

/-- C1: a push, pop or merge whose caller-supplied comparison fails at any
point leaves every involved queue exactly as it was immediately before
the call: the node store, the root pointer and the element count (and
hence size() and the full pop-ordering of all elements) are exactly the
pre-call ones; repeating the same call on the post-failure state with
any comparison schedule behaves exactly as on the pre-call state, as if
the failing call had never been attempted; and each of the three calls
run with a non-failing comparison succeeds. -/
theorem c1_failed_op_rollback {α : Type} (lt : α → α → Bool)
    (failAt : Nat → Bool) :
    (∀ (s : PtrModel.SQ α) (e : α) (k : Nat) (err : Err)
       (s2 : PtrModel.SQ α) (k2 : Nat),
       PtrModel.push lt failAt s e k = .error (err, s2, k2) →
       s2 = s ∧ ∀ (g : Nat → Bool) (k3 : Nat),
         PtrModel.push lt g s2 e k3 = PtrModel.push lt g s e k3) ∧
    (∀ (s : PtrModel.SQ α) (k : Nat) (err : Err) (s2 : PtrModel.SQ α)
       (k2 : Nat),
       PtrModel.pop lt failAt s k = .error (err, s2, k2) →
       s2 = s ∧ ∀ (g : Nat → Bool) (k3 : Nat),
         PtrModel.pop lt g s2 k3 = PtrModel.pop lt g s k3) ∧
    (∀ (σ : Store α) (q o : Option Nat × Nat) (k : Nat) (err : Err)
       (σ2 : Store α) (q2 o2 : Option Nat × Nat) (k2 : Nat),
       PtrModel.merge lt failAt false σ q o k = .error (err, σ2, q2, o2, k2) →
       σ2 = σ ∧ q2 = q ∧ o2 = o ∧ ∀ (g : Nat → Bool) (k3 : Nat),
         PtrModel.merge lt g false σ2 q2 o2 k3
           = PtrModel.merge lt g false σ q o k3) ∧
    (∀ (q : Heap.PQ α) (e : α) (k : Nat), ∃ (q2 : Heap.PQ α) (k2 : Nat),
       Heap.push (fun _ => false) q e k = (.ok (), q2, k2)) ∧
    (∀ (q : Heap.PQ α) (k : Nat) (v : α) (l r2 : Tree α),
       q.elementCount ≠ 0 → q.root = .node v l r2 →
       ∃ (q2 : Heap.PQ α) (k2 : Nat),
         Heap.pop (fun _ => false) q k = (.ok (), q2, k2)) ∧
    (∀ (q o : Heap.PQ α) (k : Nat), ∃ (q2 o2 : Heap.PQ α) (k2 : Nat),
       Heap.merge (fun _ => false) false q o k = (.ok (), q2, o2, k2)) := by
  refine ⟨?_, ?_, ?_, ?_, ?_, ?_⟩
  · intro s e k err s2 k2 h
    have hs := PtrModel.push_error h
    exact ⟨hs, fun g k3 => by rw [hs]⟩
  · intro s k err s2 k2 h
    have hs := PtrModel.pop_error h
    exact ⟨hs, fun g k3 => by rw [hs]⟩
  · intro σ q o k err σ2 q2 o2 k2 h
    obtain ⟨h1, h2, h3⟩ := PtrModel.merge_error h
    exact ⟨h1, h2, h3, fun g k3 => by rw [h1, h2, h3]⟩
  · intro q e k
    obtain ⟨k2, hm⟩ := Heap.merge_nodes_eq_skewMergeSpec q.comp q.root
      (.node e .nil .nil) k
    refine ⟨⟨skewMergeSpec q.comp q.root (.node e .nil .nil),
      q.elementCount + 1, q.comp⟩, k2, ?_⟩
    simp only [Heap.push]
    rw [hm]
  · intro q k v l r2 hc hroot
    obtain ⟨k2, hm⟩ := Heap.merge_nodes_eq_skewMergeSpec q.comp l r2 k
    refine ⟨⟨skewMergeSpec q.comp l r2, q.elementCount - 1, q.comp⟩, k2, ?_⟩
    simp only [Heap.pop]
    rw [if_neg hc]
    simp only [hroot]
    rw [hm]
  · intro q o k
    obtain ⟨k2, hm⟩ := Heap.merge_nodes_eq_skewMergeSpec q.comp q.root
      o.root k
    refine ⟨⟨skewMergeSpec q.comp q.root o.root,
      q.elementCount + o.elementCount, q.comp⟩, ⟨.nil, 0, o.comp⟩, k2, ?_⟩
    simp only [Heap.merge, if_neg (by simp : ¬false = true)]
    rw [hm]

theorem c1_failed_op_rollback_witness :
    (PtrModel.push (fun a b : Nat => decide (a < b)) (fun _ => true)
        ⟨[(1, ⟨5, none, none⟩)], some 1, 1⟩ 7 0
      = .error (.cmpFail, ⟨[(1, ⟨5, none, none⟩)], some 1, 1⟩, 1)) ∧
    (PtrModel.pop (fun a b : Nat => decide (a < b)) (fun _ => true)
        ⟨[(1, ⟨5, some 2, some 3⟩), (2, ⟨3, none, none⟩),
          (3, ⟨4, none, none⟩)], some 1, 3⟩ 0
      = .error (.cmpFail, ⟨[(1, ⟨5, some 2, some 3⟩), (2, ⟨3, none, none⟩),
          (3, ⟨4, none, none⟩)], some 1, 3⟩, 1)) ∧
    (PtrModel.merge (fun a b : Nat => decide (a < b)) (fun _ => true) false
        [(1, ⟨5, none, none⟩), (2, ⟨3, none, none⟩)] (some 1, 1) (some 2, 1) 0
      = .error (.cmpFail, [(1, ⟨5, none, none⟩), (2, ⟨3, none, none⟩)],
          (some 1, 1), (some 2, 1), 1)) ∧
    ((⟨[(1, ⟨5, none, none⟩)], some 1, 1⟩ : PtrModel.SQ Nat)
      = ⟨[(1, ⟨5, none, none⟩)], some 1, 1⟩) ∧
    (∃ (q2 : Heap.PQ Nat) (k2 : Nat),
      Heap.pop (fun _ => false)
        ⟨.node 5 .nil .nil, 1, fun a b : Nat => decide (a < b)⟩ 0
        = (.ok (), q2, k2)) := by
  refine ⟨rfl, rfl, rfl, ?_, ?_⟩
  · exact ((c1_failed_op_rollback (fun a b : Nat => decide (a < b))
      (fun _ => true)).1 ⟨[(1, ⟨5, none, none⟩)], some 1, 1⟩ 7 0 .cmpFail
      ⟨[(1, ⟨5, none, none⟩)], some 1, 1⟩ 1 rfl).1
  · exact (c1_failed_op_rollback (fun a b : Nat => decide (a < b))
      (fun _ => true)).2.2.2.2.1
      ⟨.node 5 .nil .nil, 1, fun a b : Nat => decide (a < b)⟩ 0 5 .nil .nil
      (by decide) rfl

/-- C2: on every queue reachable by a sequence of operations whose
comparison is a valid strict weak ordering, a nonempty queue's top()
succeeds and returns a stored value that is a maximum: no currently
present element is ordered above it (the root's value is not ordered
below any stored value). -/
theorem c2_top_is_maximum {α : Type} {comp : α → α → Bool}
    (hswo : IsSWO comp) {q : Heap.PQ α} (hreach : Heap.Reach comp q)
    (hne : 0 < q.elementCount) :
    ∃ v, Heap.top q = .ok v ∧ v ∈ q.root.elems ∧
      ∀ x ∈ q.root.elems, comp v x = false := by
  have hcnt := Heap.reach_count hreach
  have hasym := Heap.swo_asym hswo
  have hheap := Heap.reach_heapOrd hasym hreach
  cases hroot : q.root with
  | nil =>
      rw [hroot] at hcnt
      simp [Tree.size] at hcnt
      omega
  | node v l r =>
      refine ⟨v, ?_, ?_, ?_⟩
      · unfold Heap.top
        rw [if_neg (by omega), hroot]
      · simp [Tree.elems]
      · intro x hx
        rw [hroot] at hheap
        have hr : (Tree.node v l r).rootNotAbove comp v = true := by
          simp [Tree.rootNotAbove, hswo.1 v]
        exact Heap.heapOrd_all_notBelow hswo _ v hheap hr x hx

theorem c2_top_is_maximum_witness :
    ∃ v, Heap.top (⟨.node 5 .nil .nil, 1, fun a b : Nat => decide (a < b)⟩ :
        Heap.PQ Nat) = .ok v ∧
      v ∈ (Tree.node 5 .nil .nil : Tree Nat).elems ∧
      ∀ x ∈ (Tree.node 5 .nil .nil : Tree Nat).elems,
        (fun a b : Nat => decide (a < b)) v x = false := by
  have hswo : IsSWO (fun a b : Nat => decide (a < b)) := by
    refine ⟨fun x => by simp, fun x y z h1 h2 => ?_, fun x y z h1 h2 h3 h4 => ?_⟩
    · simp at h1 h2 ⊢
      omega
    · simp at h1 h2 h3 h4 ⊢
      omega
  have hpush : Heap.push (fun _ => false)
      (⟨.nil, 0, fun a b : Nat => decide (a < b)⟩ : Heap.PQ Nat) 5 0
      = (.ok (), ⟨.node 5 .nil .nil, 1, fun a b : Nat => decide (a < b)⟩, 0) := by
    simp [Heap.push, Heap.merge_nodes]
  have hreach : Heap.Reach (fun a b : Nat => decide (a < b))
      ⟨.node 5 .nil .nil, 1, fun a b : Nat => decide (a < b)⟩ :=
    Heap.Reach.pushStep (fun _ => false) 5 0 Heap.Reach.init hpush
  exact c2_top_is_maximum hswo hreach (by decide)

/-- C3: the heap-order invariant (no node is ordered strictly below one
of its children) holds for the root tree of every queue reachable by any
sequence of push, pop and merge operations, the comparison being
asymmetric as every valid strict weak ordering is; and merge_nodes, given
two heap-ordered trees, on success returns a heap-ordered tree holding
exactly the union of the two input node sets. -/
theorem c3_heap_order_invariant {α : Type} {comp : α → α → Bool}
    (hasym : ∀ x y : α, comp x y = true → comp y x = false) :
    (∀ q : Heap.PQ α, Heap.Reach comp q → q.root.heapOrd comp = true) ∧
    (∀ (failAt : Nat → Bool) (a b : Tree α) (k : Nat) (t : Tree α) (k2 : Nat),
       Heap.merge_nodes comp failAt a b k = .ok (t, k2) →
       a.heapOrd comp = true → b.heapOrd comp = true →
       t.heapOrd comp = true ∧ t.elems = a.elems + b.elems) := by
  constructor
  · intro q hq
    exact Heap.reach_heapOrd hasym hq
  · intro failAt a b k t k2 hm ha hb
    exact ⟨(Heap.merge_nodes_heapOrd hasym _ _ _ _ _ hm ha hb).1,
      Heap.merge_nodes_elems _ _ _ _ _ hm⟩

theorem c3_heap_order_invariant_witness :
    ((Tree.node 2 (.node 1 .nil .nil) .nil : Tree Nat).heapOrd
        (fun a b : Nat => decide (a < b)) = true ∧
      (Tree.node 2 (.node 1 .nil .nil) .nil : Tree Nat).elems
        = (Tree.node 1 .nil .nil : Tree Nat).elems
          + (Tree.node 2 .nil .nil : Tree Nat).elems) := by
  have hasym : ∀ x y : Nat, (fun a b : Nat => decide (a < b)) x y = true →
      (fun a b : Nat => decide (a < b)) y x = false := by
    intro x y h
    simp at h ⊢
    omega
  exact (c3_heap_order_invariant hasym).2 (fun _ => false)
    (.node 1 .nil .nil) (.node 2 .nil .nil) 0
    (.node 2 (.node 1 .nil .nil) .nil) 1
    (by simp [Heap.merge_nodes]) (by decide) (by decide)

/-- C4: a successful merge of two distinct queues makes the recipient's
element multiset the union of the two prior multisets, makes its count
the sum of the two prior counts, and leaves the donor empty (absent root
and zero count); no element is lost or duplicated. -/
theorem c4_merge_union_and_empties_donor {α : Type} {failAt : Nat → Bool}
    {a b : Heap.PQ α} {k : Nat} {r : Except Err Unit} {a2 b2 : Heap.PQ α}
    {k2 : Nat} (h : Heap.merge failAt false a b k = (r, a2, b2, k2))
    (hok : r = .ok ()) :
    a2.root.elems = a.root.elems + b.root.elems ∧
    a2.elementCount = a.elementCount + b.elementCount ∧
    b2.root = .nil ∧ b2.elementCount = 0 := by
  rcases Heap.merge_cases h with ⟨herr, -, -⟩ | ⟨t, -, hm, rfl, rfl⟩
  · rw [hok] at herr
    cases herr
  · exact ⟨Heap.merge_nodes_elems _ _ _ _ _ hm, rfl, rfl, rfl⟩

theorem c4_merge_union_and_empties_donor_witness :
    (Tree.node 2 (.node 1 .nil .nil) .nil : Tree Nat).elems
        = (Tree.node 1 .nil .nil : Tree Nat).elems
          + (Tree.node 2 .nil .nil : Tree Nat).elems ∧
    (2 : Nat) = 1 + 1 ∧ (Tree.nil : Tree Nat) = .nil ∧ (0 : Nat) = 0 := by
  have h : Heap.merge (fun _ => false) false
      (⟨.node 1 .nil .nil, 1, fun a b : Nat => decide (a < b)⟩ : Heap.PQ Nat)
      ⟨.node 2 .nil .nil, 1, fun a b : Nat => decide (a < b)⟩ 0
      = (.ok (), ⟨.node 2 (.node 1 .nil .nil) .nil, 2,
          fun a b : Nat => decide (a < b)⟩,
        ⟨.nil, 0, fun a b : Nat => decide (a < b)⟩, 1) := by
    simp [Heap.merge, Heap.merge_nodes]
  exact c4_merge_union_and_empties_donor h rfl

/-- C5: on every reachable queue the stored count equals the number of
nodes reachable from the root, and the root is absent exactly when the
count is zero. -/
theorem c5_count_consistency {α : Type} {comp : α → α → Bool}
    {q : Heap.PQ α} (h : Heap.Reach comp q) :
    q.elementCount = q.root.size ∧ (q.root = .nil ↔ q.elementCount = 0) := by
  have hc := Heap.reach_count h
  refine ⟨hc, ?_, ?_⟩
  · intro h0
    rw [hc, h0]
    rfl
  · intro h0
    rw [h0] at hc
    cases hr : q.root with
    | nil => rfl
    | node v l r =>
        rw [hr] at hc
        simp only [Tree.size] at hc
        exact absurd hc (by omega)

theorem c5_count_consistency_witness :
    (1 : Nat) = (Tree.node 5 .nil .nil : Tree Nat).size ∧
    ((Tree.node 5 .nil .nil : Tree Nat) = .nil ↔ (1 : Nat) = 0) := by
  have hpush : Heap.push (fun _ => false)
      (⟨.nil, 0, fun a b : Nat => decide (a < b)⟩ : Heap.PQ Nat) 5 0
      = (.ok (), ⟨.node 5 .nil .nil, 1, fun a b : Nat => decide (a < b)⟩, 0) := by
    simp [Heap.push, Heap.merge_nodes]
  have hreach : Heap.Reach (fun a b : Nat => decide (a < b))
      ⟨.node 5 .nil .nil, 1, fun a b : Nat => decide (a < b)⟩ :=
    Heap.Reach.pushStep (fun _ => false) 5 0 Heap.Reach.init hpush
  exact c5_count_consistency hreach

/-- C6: on non-failing comparisons merge_nodes computes exactly the
reference skew-heap merge of the spec: the root not ordered below the
other survives (ties keep the first argument), its right child is merged
with the other tree and installed, and its two children are then
swapped. -/
theorem c6_merge_matches_reference_skew_merge {α : Type}
    (lt : α → α → Bool) (a b : Tree α) (k : Nat) :
    ∃ k2, Heap.merge_nodes lt (fun _ => false) a b k
      = .ok (skewMergeSpec lt a b, k2) :=
  Heap.merge_nodes_eq_skewMergeSpec lt a b k

/-- C7: merging a queue with itself is a no-op at both modelling levels:
the call returns normally, invokes no comparison (the invocation counter
is returned unchanged), and leaves contents and count unchanged. -/
theorem c7_self_merge_noop {α : Type} (lt : α → α → Bool)
    (failAt : Nat → Bool) (q : Heap.PQ α) (k : Nat) (σ : Store α)
    (p : Option Nat × Nat) :
    Heap.merge failAt true q q k = (.ok (), q, q, k) ∧
    PtrModel.merge lt failAt true σ p p k = .ok (σ, p, p, k) :=
  ⟨rfl, rfl⟩

/-- C8: copy-assignment clones the source into a temporary first; if the
clone fails the destination (contents, count and comparison object alike)
is exactly what it was before the assignment, and only on full success is
the destination replaced by the clone of the source. -/
theorem c8_assign_strong_guarantee {α : Type} {copyFail : α → Bool}
    {dst src : Heap.PQ α} {r : Except Err Unit} {q2 : Heap.PQ α}
    (h : Heap.assign copyFail false dst src = (r, q2)) :
    (∀ e : Err, r = .error e → q2 = dst) ∧
    (r = .ok () → q2 = ⟨src.root, src.elementCount, src.comp⟩) := by
  rcases Heap.assign_cases h with ⟨e, he, rfl⟩ | ⟨hok, t, hcl, rfl⟩
  · constructor
    · intro e2 h2
      rfl
    · intro hok
      rw [hok] at he
      cases he
  · constructor
    · intro e2 h2
      rw [hok] at h2
      cases h2
    · intro h2
      rw [Heap.clone_nodes_ok hcl]

theorem c8_assign_strong_guarantee_witness :
    Heap.assign (fun v : Nat => decide (v = 3)) false
        (⟨.node 9 .nil .nil, 1, fun a b : Nat => decide (a < b)⟩ :
          Heap.PQ Nat)
        ⟨.node 3 .nil .nil, 1, fun a b : Nat => decide (a < b)⟩
      = (.error .alloc,
          ⟨.node 9 .nil .nil, 1, fun a b : Nat => decide (a < b)⟩) ∧
    (⟨.node 9 .nil .nil, 1, fun a b : Nat => decide (a < b)⟩ : Heap.PQ Nat)
      = ⟨.node 9 .nil .nil, 1, fun a b : Nat => decide (a < b)⟩ := by
  have h : Heap.assign (fun v : Nat => decide (v = 3)) false
      (⟨.node 9 .nil .nil, 1, fun a b : Nat => decide (a < b)⟩ :
        Heap.PQ Nat)
      ⟨.node 3 .nil .nil, 1, fun a b : Nat => decide (a < b)⟩
      = (.error .alloc,
          ⟨.node 9 .nil .nil, 1, fun a b : Nat => decide (a < b)⟩) := rfl
  exact ⟨rfl, (c8_assign_strong_guarantee h).1 .alloc rfl⟩

/-- C9: when an allocation or element-copy fails during push or during a
clone, every node allocated so far by that call has been freed by the
time the failure propagates: the allocation count equals the free count
on every failing run, so nothing is leaked or left reachable. -/
theorem c9_alloc_failure_no_leak {α : Type} (copyFail : α → Bool)
    (allocFail : Bool) (failAt : Nat → Bool) :
    (∀ (t : Tree α) (a f : Nat),
       Heap.clone_acct copyFail t = .error (a, f) → a = f) ∧
    (∀ (q : Heap.PQ α) (e : α) (k : Nat) (err : Err) (a f : Nat),
       Heap.push_acct allocFail failAt q e k = .error (err, a, f) → a = f) := by
  constructor
  · intro t a f h
    exact Heap.clone_acct_error h
  · intro q e k err a f h
    unfold Heap.push_acct at h
    split at h
    next hA =>
      simp only [Except.error.injEq, Prod.mk.injEq] at h
      omega
    next hA =>
      split at h
      next t2 k3 hm => simp at h
      next k3 hm =>
        simp only [Except.error.injEq, Prod.mk.injEq] at h
        omega

theorem c9_alloc_failure_no_leak_witness :
    Heap.clone_acct (fun v : Nat => decide (v = 3))
        (.node 1 (.node 2 .nil .nil) (.node 3 .nil .nil)) = .error (2, 2) ∧
    (2 : Nat) = 2 ∧
    Heap.push_acct true (fun _ => false)
        (⟨.nil, 0, fun a b : Nat => decide (a < b)⟩ : Heap.PQ Nat) 7 0
      = .error (.alloc, 0, 0) ∧
    (0 : Nat) = 0 := by
  refine ⟨rfl, ?_, rfl, ?_⟩
  · exact (c9_alloc_failure_no_leak (fun v : Nat => decide (v = 3)) true
      (fun _ => false)).1 (.node 1 (.node 2 .nil .nil) (.node 3 .nil .nil))
      2 2 rfl
  · exact (c9_alloc_failure_no_leak (fun v : Nat => decide (v = 3)) true
      (fun _ => false)).2 ⟨.nil, 0, fun a b : Nat => decide (a < b)⟩ 7 0
      .alloc 0 0 rfl

/-- C10: self-assignment is a no-op: for every queue and every copy
behaviour (including one that always fails) it returns normally without
cloning or tearing anything down and leaves the queue unchanged. -/
theorem c10_self_assign_noop {α : Type} (copyFail : α → Bool)
    (q : Heap.PQ α) :
    Heap.assign copyFail true q q = (.ok (), q) :=
  rfl

end SkewPQ
